import Mathlib

/-
Shallow embedding of the captions-builder motion-typography engine.

Sources embedded:
  - engine/dsl/keyframes.py   (KeyframeInterpolator)
  - engine/dsl/easing.py      (easing registry and lookup)
  - engine/dsl/validator.py   (validate_transcript, validate_styles)
  - engine/core/types.py      (Word, Segment, Transcript, Keyframe, Animation,
                               StyleConfig, Frame, Timeline)
  - engine/pipeline.py        (MotionTypographyEngine.compile, _get_elements_at_time,
                               _create_element, render)

Modelling conventions: Python floats are embedded as exact rationals (ℚ);
Python dicts of animation/element properties are association lists looked up
by first match (keys are unique in every dict the code builds); Python
exceptions are `Except String`; the per-frame render loop's collaborators
(rasterizer, background compositor, GPU transfer, effects) are oracles that
may return an error per frame, mirroring the try/except structure of
`MotionTypographyEngine.render`.
-/

namespace Captions

/-- A JSON-ish property value as stored in keyframe `properties` dicts and
element dicts: numbers (int/float collapsed to ℚ), strings, lists, `None`. -/
inductive Value where
  | num  : ℚ → Value
  | str  : String → Value
  | list : List Value → Value
  | null : Value

mutual
def Value.decEq : (a b : Value) → Decidable (a = b)
  | .num a, .num b =>
      if h : a = b then .isTrue (by rw [h]) else .isFalse (fun heq => h (by cases heq; rfl))
  | .num _, .str _ => .isFalse (fun h => by cases h)
  | .num _, .list _ => .isFalse (fun h => by cases h)
  | .num _, .null => .isFalse (fun h => by cases h)
  | .str _, .num _ => .isFalse (fun h => by cases h)
  | .str a, .str b =>
      if h : a = b then .isTrue (by rw [h]) else .isFalse (fun heq => h (by cases heq; rfl))
  | .str _, .list _ => .isFalse (fun h => by cases h)
  | .str _, .null => .isFalse (fun h => by cases h)
  | .list _, .num _ => .isFalse (fun h => by cases h)
  | .list _, .str _ => .isFalse (fun h => by cases h)
  | .list l1, .list l2 =>
      match Value.decEqList l1 l2 with
      | .isTrue h => .isTrue (by rw [h])
      | .isFalse h => .isFalse (fun heq => h (by cases heq; rfl))
  | .list _, .null => .isFalse (fun h => by cases h)
  | .null, .num _ => .isFalse (fun h => by cases h)
  | .null, .str _ => .isFalse (fun h => by cases h)
  | .null, .list _ => .isFalse (fun h => by cases h)
  | .null, .null => .isTrue rfl

def Value.decEqList : (a b : List Value) → Decidable (a = b)
  | [], [] => .isTrue rfl
  | [], _ :: _ => .isFalse (fun h => by cases h)
  | _ :: _, [] => .isFalse (fun h => by cases h)
  | a :: as, b :: bs =>
      match Value.decEq a b, Value.decEqList as bs with
      | .isTrue h1, .isTrue h2 => .isTrue (by rw [h1, h2])
      | .isFalse h1, _ => .isFalse (fun h => h1 (by cases h; rfl))
      | .isTrue _, .isFalse h2 => .isFalse (fun h => h2 (by cases h; rfl))
end

instance : DecidableEq Value := Value.decEq

/-- A Python dict of properties, as an association list with unique keys. -/
abbrev Props := List (String × Value)

/-- Python `d.get(key)` ignoring the stored-`None`-vs-missing distinction the
interpolation code cannot observe (`props1.get(key)` is `None` in both cases). -/
def lookupProp (p : Props) (k : String) : Option Value :=
  match p.find? (fun kv => kv.1 = k) with
  | some kv => some kv.2
  | none => none

/-- `props.get(key)` as used by `_interpolate_properties`: a stored `None`
behaves exactly like a missing key. -/
def pget (p : Props) (k : String) : Option Value :=
  match lookupProp p k with
  | some .null => none
  | v => v

/-- Python `d[key] = v`: replace in place if the key exists, else append. -/
def setProp : Props → String → Value → Props
  | [], k, v => [(k, v)]
  | (k2, v2) :: rest, k, v =>
      if k2 = k then (k, v) :: rest else (k2, v2) :: setProp rest k v

/-- Python `d.update(other)` applied key by key. -/
def updateProps (base p : Props) : Props :=
  p.foldl (fun acc kv => setProp acc kv.1 kv.2) base

/-- `set(props1.keys()) | set(props2.keys())`, in first-seen order. -/
def unionKeys (p1 p2 : Props) : List String :=
  (p1.map Prod.fst ++ p2.map Prod.fst).dedup

mutual
/-- `KeyframeInterpolator._interpolate_value`: numeric lerp; equal-length
sequences elementwise; either-string discrete switch at t = 0.5; otherwise
the target value.  (Python's check order: numbers, then equal-length
sequences, then strings, then default.) -/
def interpolateValue : Value → Value → ℚ → Value
  | .num a, .num b, t => .num (a + (b - a) * t)
  | .list l1, .list l2, t =>
      if l1.length = l2.length then .list (interpolateValueList l1 l2 t)
      else .list l2
  | .str s1, v2, t => if t > 1/2 then v2 else .str s1
  | v1, .str s2, t => if t > 1/2 then .str s2 else v1
  | _, v2, _ => v2

def interpolateValueList : List Value → List Value → ℚ → List Value
  | [], _, _ => []
  | _ :: _, [], _ => []
  | a :: as, b :: bs, t => interpolateValue a b t :: interpolateValueList as bs t
end

/-- `KeyframeInterpolator._interpolate_properties`: merge over the union of
both keyframes' keys; a key absent (or `None`) on one side passes the other
side through unchanged. -/
def interpolateProps (p1 p2 : Props) (t : ℚ) : Props :=
  (unionKeys p1 p2).map (fun k =>
    match pget p1 k, pget p2 k with
    | none, some v2 => (k, v2)
    | some v1, none => (k, v1)
    | some v1, some v2 => (k, interpolateValue v1 v2 t)
    | none, none => (k, Value.null))

/-- `engine.core.types.Keyframe`: a time in [0,1] with a property dict.  The
range is enforced where the code enforces it (`get_keyframes`). -/
structure Keyframe where
  time : ℚ
  properties : Props
deriving DecidableEq

instance : Inhabited Keyframe := ⟨⟨0, []⟩⟩

/-- The keyframe ordering used by `sorted(keyframes, key=lambda k: k.time)`. -/
def kfLe (a b : Keyframe) : Prop := a.time ≤ b.time

instance : DecidableRel kfLe := fun a b => inferInstanceAs (Decidable (a.time ≤ b.time))

instance : IsTotal Keyframe kfLe := ⟨fun a b => le_total a.time b.time⟩

instance : IsTrans Keyframe kfLe := ⟨fun _ _ _ => le_trans⟩

/-- `sorted(keyframes, key=lambda k: k.time)` — a stable sort by time. -/
def sortKeyframes (l : List Keyframe) : List Keyframe := l.insertionSort kfLe

/-- `KeyframeInterpolator._validate_keyframes` on the already-sorted list. -/
def validateKeyframes (kfs : List Keyframe) : Except String Unit :=
  match kfs with
  | [] => .error "At least one keyframe is required"
  | first :: _ =>
      if first.time ≠ 0 then .error "First keyframe must be at time 0.0"
      else if (kfs.getLastD default).time ≠ 1 then .error "Last keyframe must be at time 1.0"
      else .ok ()

/-- `KeyframeInterpolator.__init__`: sort, then validate; the stored state is
the sorted keyframe list (the easing function is passed to `interpolate`
separately in this embedding). -/
def mkInterpolator (kfs : List Keyframe) : Except String (List Keyframe) := do
  let sorted := sortKeyframes kfs
  validateKeyframes sorted
  pure sorted

/-- `max(0.0, min(1.0, t))`. -/
def clamp01 (t : ℚ) : ℚ := max 0 (min 1 t)

/-- The linear scan of `interpolate` over adjacent keyframe pairs, returning
the first bracketing pair with `kf1.time ≤ eased_t ≤ kf2.time`. -/
def findBracket (eased : ℚ) : List Keyframe → Option (Keyframe × Keyframe)
  | kf1 :: kf2 :: rest =>
      if kf1.time ≤ eased ∧ eased ≤ kf2.time then some (kf1, kf2)
      else findBracket eased (kf2 :: rest)
  | _ => none

/-- `KeyframeInterpolator.interpolate`: clamp `t`, apply easing (result NOT
re-clamped), bracket-scan, lerp the bracketing pair; if no bracket matches,
return the last keyframe's properties. -/
def interpolate (kfs : List Keyframe) (easing : ℚ → ℚ) (t : ℚ) : Props :=
  let t' := clamp01 t
  let eased := easing t'
  match findBracket eased kfs with
  | some (kf1, kf2) =>
      let localT := if kf2.time ≠ kf1.time then (eased - kf1.time) / (kf2.time - kf1.time) else 0
      interpolateProps kf1.properties kf2.properties localT
  | none => (kfs.getLastD default).properties

/-- The 25 distinct curve functions of `engine/dsl/easing.py`; the registry's
three aliases (`easeIn`/`easeOut`/`easeInOut`) map to the cubic tags, exactly
as `_EASING_MAP` maps them to the same function objects. -/
inductive EasingTag where
  | linear
  | easeInQuad | easeOutQuad | easeInOutQuad
  | easeInCubic | easeOutCubic | easeInOutCubic
  | easeInQuartic | easeOutQuartic | easeInOutQuartic
  | easeInSine | easeOutSine | easeInOutSine
  | easeInExponential | easeOutExponential | easeInOutExponential
  | easeInElastic | easeOutElastic | easeInOutElastic
  | easeInBounce | easeOutBounce | easeInOutBounce
  | easeInBack | easeOutBack | easeInOutBack
deriving DecidableEq

/-- `_EASING_MAP`, in Python dict insertion order. -/
def easingMap : List (String × EasingTag) :=
  [("linear", .linear),
   ("easeInQuad", .easeInQuad), ("easeOutQuad", .easeOutQuad), ("easeInOutQuad", .easeInOutQuad),
   ("easeInCubic", .easeInCubic), ("easeOutCubic", .easeOutCubic), ("easeInOutCubic", .easeInOutCubic),
   ("easeInQuartic", .easeInQuartic), ("easeOutQuartic", .easeOutQuartic),
   ("easeInOutQuartic", .easeInOutQuartic),
   ("easeInSine", .easeInSine), ("easeOutSine", .easeOutSine), ("easeInOutSine", .easeInOutSine),
   ("easeInExponential", .easeInExponential), ("easeOutExponential", .easeOutExponential),
   ("easeInOutExponential", .easeInOutExponential),
   ("easeInElastic", .easeInElastic), ("easeOutElastic", .easeOutElastic),
   ("easeInOutElastic", .easeInOutElastic),
   ("easeInBounce", .easeInBounce), ("easeOutBounce", .easeOutBounce),
   ("easeInOutBounce", .easeInOutBounce),
   ("easeInBack", .easeInBack), ("easeOutBack", .easeOutBack), ("easeInOutBack", .easeInOutBack),
   ("easeIn", .easeInCubic), ("easeOut", .easeOutCubic), ("easeInOut", .easeInOutCubic)]

/-- Python `str.lower()` (character-wise; the registry keys are ASCII). -/
def lowerStr (s : String) : String := ⟨s.data.map Char.toLower⟩

/-- `get_easing_function`: exact-key lookup, then a case-insensitive scan in
registry order, defaulting to linear.  Total — never raises. -/
def getEasingFunction (name : String) : EasingTag :=
  match easingMap.find? (fun kv => kv.1 = name) with
  | some kv => kv.2
  | none =>
      match easingMap.find? (fun kv => lowerStr kv.1 = lowerStr name) with
      | some kv => kv.2
      | none => .linear

/-- `EasingFunction.ease_in_back` over exact rationals:
`c3·t³ − c1·t²` with `c1 = 1.70158`, `c3 = c1 + 1`. -/
def easeInBackQ (t : ℚ) : ℚ := (270158/100000) * t * t * t - (170158/100000) * t * t

/-- `engine.core.types.Word` (the optional `id` plays no role in any claim). -/
structure Word where
  text : String
  start : ℚ
  «end» : ℚ
deriving DecidableEq

/-- `engine.core.types.Segment`. -/
structure Segment where
  text : String
  start : ℚ
  «end» : ℚ
  words : List Word
deriving DecidableEq

/-- `engine.core.types.Transcript`. -/
structure Transcript where
  segments : List Segment
  duration : ℚ
deriving DecidableEq

/-- The per-word repair step of `validate_transcript` (lines 39-44), against
the current segment end `e`. -/
def fixWord (e : ℚ) (w : Word) : Word :=
  if w.«end» < w.start then { w with «end» := w.start + 1/100 }
  else if w.«end» = w.start then { w with «end» := min (w.start + 1/100) e }
  else w

/-- The per-word repair loop of `validate_transcript` (lines 37-50): fix each
word's range against the CURRENT segment end, then expand the running segment
bounds to include the fixed word; returns the final bounds and fixed words. -/
def processWords : ℚ → ℚ → List Word → ℚ × ℚ × List Word
  | s, e, [] => (s, e, [])
  | s, e, w :: ws =>
      let w' : Word := fixWord e w
      let s' := if w'.start < s then w'.start else s
      let e' := if w'.«end» > e then w'.«end» else e
      let r := processWords s' e' ws
      (r.1, r.2.1, w' :: r.2.2)

/-- `min(w.start for w in words)` over a non-empty word list. -/
def segMinStart (w0 : Word) (rest : List Word) : ℚ :=
  rest.foldl (fun a w => min a w.start) w0.start

/-- `max(w.end for w in words)` over a non-empty word list. -/
def segMaxEnd (w0 : Word) (rest : List Word) : ℚ :=
  rest.foldl (fun a w => max a w.«end») w0.«end»

/-- The segment-level repair of `validate_transcript` (lines 27-34), applied
after the negative-start clamp: a degenerate segment is reset to its words'
min/max bounds, padded to `start+0.1` if still degenerate. -/
def resetBounds (s0 e0 : ℚ) (w0 : Word) (rest : List Word) : ℚ × ℚ :=
  if e0 ≤ s0 then
    let ms := segMinStart w0 rest
    let me := segMaxEnd w0 rest
    if me ≤ ms then (ms, ms + 1/10) else (ms, me)
  else (s0, e0)

/-- One iteration of the segment loop of `validate_transcript`: clamp a
negative start to 0, drop wordless segments, repair degenerate segment
bounds, then run the word repair / expansion loop. -/
def validateSegment (seg : Segment) : Option Segment :=
  let s0 := if seg.start < 0 then 0 else seg.start
  match seg.words with
  | [] => none
  | w0 :: rest =>
      let b := resetBounds s0 seg.«end» w0 rest
      let r := processWords b.1 b.2 (w0 :: rest)
      some { seg with start := r.1, «end» := r.2.1, words := r.2.2 }

/-- `validate_transcript`, as a pure function from the input transcript to
the repaired transcript (the Python version repairs in place and returns
True; raising is modelled as `Except.error`). -/
def validateTranscript (t : Transcript) : Except String Transcript :=
  if t.segments.isEmpty then .error "Transcript must have at least one segment"
  else
    let segs := t.segments.filterMap validateSegment
    if segs.isEmpty then .error "No valid segments found in transcript"
    else .ok { t with segments := segs }

/-- `engine.core.types.Animation`.  The percent-keyed keyframe dict is
embedded with times already divided by 100 (`"50%" ↦ 1/2`); `stagger` plays
no role in the compiler and is omitted. -/
structure Animation where
  selector : String
  keyframes : List (ℚ × Props)
  duration : ℚ
  easing : String := "linear"
  delay : ℚ := 0
deriving DecidableEq

/-- `engine.core.types.EffectConfig` (parameter bags kept abstract). -/
structure EffectConfig where
  blur : Option Props := none
  glow : Option Props := none
  shadow : Option Value := none
deriving DecidableEq

/-- `engine.core.types.StyleConfig` (fields irrelevant to every claim —
letter spacing, line height, text align, padding, border radius — omitted). -/
structure StyleConfig where
  fontFamily : String := "Arial"
  fontSize : ℚ := 72
  resolution : ℤ × ℤ := (1920, 1080)
  fps : ℤ := 60
  backgroundColor : ℕ × ℕ × ℕ × ℕ := (0, 0, 0, 255)
  animations : List Animation := []
  effects : Option EffectConfig := none
  color : Option String := none
  fontWeight : Option Value := none
deriving DecidableEq

/-- The animation loop of `validate_styles`: first animation with
non-positive duration or empty keyframes raises. -/
def validateAnims : List Animation → Except String Unit
  | [] => .ok ()
  | a :: rest =>
      if a.duration ≤ 0 then .error ("Animation duration must be positive: " ++ a.selector)
      else if a.keyframes.isEmpty then .error ("Animation must have keyframes: " ++ a.selector)
      else validateAnims rest

/-- `validate_styles` (the `len(resolution) != 2` branch is unrepresentable
in this typed embedding where resolution is a pair). -/
def validateStyles (s : StyleConfig) : Except String Unit :=
  if s.fps ≤ 0 then .error "FPS must be positive"
  else if s.fontSize ≤ 0 then .error "Font size must be positive"
  else if s.resolution.1 ≤ 0 ∨ s.resolution.2 ≤ 0 then
    .error "Resolution must be a tuple of two positive integers"
  else validateAnims s.animations

/-- A Python `for` loop building a list, where the body may raise: the first
error aborts the whole computation. -/
def mapME (f : α → Except ε β) : List α → Except ε (List β)
  | [] => .ok []
  | x :: xs => do
      let y ← f x
      let ys ← mapME f xs
      pure (y :: ys)

/-- `Animation.get_keyframes`: build `Keyframe` values (whose constructor
raises on a time outside [0,1]) and sort them by time. -/
def getKeyframes (a : Animation) : Except String (List Keyframe) := do
  let kfs ← mapME (fun p =>
      if 0 ≤ p.1 ∧ p.1 ≤ 1 then Except.ok (⟨p.1, p.2⟩ : Keyframe)
      else Except.error "Keyframe time must be between 0.0 and 1.0") a.keyframes
  pure (sortKeyframes kfs)

/-- The per-word animation progress of `_create_element` (lines 136-137):
`clamp((t - word.start - delay)/duration, 0, 1)`, or 1 for a non-positive
duration. -/
def animProgress (a : Animation) (w : Word) (ts : ℚ) : ℚ :=
  if a.duration > 0 then clamp01 ((ts - w.start - a.delay) / a.duration) else 1

/-- A timestamp at which some active word of some active segment has
animation progress below 1.0 for animation `a` — exactly the situation in
which `_create_element` constructs a `KeyframeInterpolator`. -/
def badFrame (t : Transcript) (a : Animation) (ts : ℚ) : Prop :=
  ∃ seg ∈ t.segments, (seg.start ≤ ts ∧ ts ≤ seg.«end») ∧
    ∃ w ∈ seg.words, (w.start ≤ ts ∧ ts ≤ w.«end») ∧ animProgress a w ts < 1

instance (t : Transcript) (a : Animation) (ts : ℚ) : Decidable (badFrame t a ts) :=
  inferInstanceAs (Decidable (∃ seg ∈ t.segments, _ ∧ ∃ w ∈ seg.words, _ ∧ _))

/-- The `ValueError` message `KeyframeInterpolator._validate_keyframes`
raises for an animation whose sorted keyframes do not start at time 0 or do
not end at time 1. -/
def kfErrMsg (a : Animation) : String :=
  if ((sortKeyframes (a.keyframes.map (fun p => (⟨p.1, p.2⟩ : Keyframe)))).headD
      default).time ≠ 0
  then "First keyframe must be at time 0.0"
  else "Last keyframe must be at time 1.0"

/-- Python truncation `int(x)`: toward zero. -/
def truncRat (q : ℚ) : ℤ := if 0 ≤ q then q.floor else q.ceil

/-- The default element dict of `_create_element` (lines 118-130); `x`/`y`
use Python's floor division `//` on the resolution, `styles.color or
"#FFFFFF"` treats the empty string as falsy. -/
def baseElement (res : ℤ × ℤ) (s : StyleConfig) (w : Word) : Props :=
  [("text", .str w.text),
   ("x", .num ((res.1 / 2 : ℤ) : ℚ)),
   ("y", .num ((res.2 / 2 : ℤ) : ℚ)),
   ("opacity", .num 1),
   ("scale", .num 1),
   ("rotation", .num 0),
   ("color", .str (match s.color with
                   | some c => if c = "" then "#FFFFFF" else c
                   | none => "#FFFFFF")),
   ("fontSize", .num s.fontSize),
   ("fontFamily", .str s.fontFamily),
   ("fontWeight", s.fontWeight.getD .null)]

/-- `MotionTypographyEngine._create_element`: base properties, then for each
`word`-selector animation with progress `< 1.0`, interpolate its keyframes
(interpolator construction may raise) and merge into the element; finally
attach the configured shadow.  Parametric in `evalE`, the numeric meaning of
each easing curve (transcendental curves have no exact rational form; no
claim below depends on a particular curve's values except via explicit
instantiation). -/
def createElement (evalE : EasingTag → ℚ → ℚ) (w : Word) (s : StyleConfig)
    (currentTime : ℚ) : Except String Props := do
  let elem ← s.animations.foldlM (fun elem a =>
    if a.selector = "word" then
      if animProgress a w currentTime < 1 then do
        let kfs ← getKeyframes a
        let sorted ← mkInterpolator kfs
        let props := interpolate sorted (evalE (getEasingFunction a.easing))
          (animProgress a w currentTime)
        pure (updateProps elem props)
      else pure elem
    else pure elem) (baseElement s.resolution s w)
  match s.effects with
  | some eff =>
      match eff.shadow with
      | some sh => pure (setProp elem "shadow" sh)
      | none => pure elem
  | none => pure elem

/-- `MotionTypographyEngine._get_elements_at_time`: one element per active
word of each active segment, in order; the first raising element creation
aborts (propagates out of `compile`). -/
def getElementsAtTime (evalE : EasingTag → ℚ → ℚ) (t : Transcript)
    (s : StyleConfig) (timestamp : ℚ) : Except String (List Props) := do
  let lists ← mapME (fun seg =>
      if seg.start ≤ timestamp ∧ timestamp ≤ seg.«end» then
        mapME (fun w => createElement evalE w s timestamp)
          (seg.words.filter (fun w => w.start ≤ timestamp ∧ timestamp ≤ w.«end»))
      else pure []) t.segments
  pure lists.flatten

/-- `engine.core.types.Frame`. -/
structure Frame where
  timestamp : ℚ
  elements : List Props
deriving DecidableEq

/-- `engine.core.types.Timeline`. -/
structure Timeline where
  frames : List Frame
  duration : ℚ
  fps : ℤ
  resolution : ℤ × ℤ
  styles : StyleConfig
deriving DecidableEq

/-- `MotionTypographyEngine.compile`: validate, override engine fps and
resolution from the styles (a zero fps, falsy in Python, keeps the engine
default; the resolution tuple is always truthy), then build
`int(duration·fps) + 1` frames at timestamps `i·(1/fps)`. -/
def compile (evalE : EasingTag → ℚ → ℚ) (t : Transcript) (s : StyleConfig)
    (fps0 : ℤ) : Except String Timeline := do
  let t ← validateTranscript t
  validateStyles s
  let res := s.resolution
  let fps := if s.fps ≠ 0 then s.fps else fps0
  let total := (truncRat (t.duration * fps)).toNat + 1
  let frames ← mapME (fun (i : ℕ) => do
      let ts := (i : ℚ) * (1 / (fps : ℚ))
      let els ← getElementsAtTime evalE t s ts
      Except.ok (⟨ts, els⟩ : Frame)) (List.range total)
  pure ⟨frames, t.duration, fps, res, s⟩

/-- An RGBA raster as rows of pixels. -/
abbrev Image := List (List (ℕ × ℕ × ℕ × ℕ))

/-- The fallback frame built in the outer `except` of `render` (lines
256-259): `np.zeros((h, w, 4))` with the RGB channels set to the configured
background colour and the alpha channel to its alpha. -/
def solidFrame (res : ℤ × ℤ) (bg : ℕ × ℕ × ℕ × ℕ) : Image :=
  List.replicate res.2.toNat (List.replicate res.1.toNat bg)

/-- The per-frame collaborators of `MotionTypographyEngine.render`, as
oracles indexed by frame number, each of which may raise exactly where the
Python call may: text rasterization (`renderer.render_frame`), background
compositing (video fetch + resize + alpha blend), the two GPU transfers, and
each effect of the configured chain. -/
structure RenderOracle where
  raster : ℕ → Except String Image
  composite : ℕ → Image → Except String Image
  toGpu : ℕ → Image → Except String Image
  effects : List (ℕ → Image → Except String Image)
  toCpu : ℕ → Image → Except String Image

/-- The inner `try` of `render` (lines 238-242): transfer to the device,
apply each effect in order, transfer back. -/
def effectChain (o : RenderOracle) (k : ℕ) (img : Image) : Except String Image := do
  let t ← o.toGpu k img
  let t ← o.effects.foldlM (fun acc eff => eff k acc) t
  o.toCpu k t

/-- The body of the frame loop of `render` for frame `k`: rasterize and
composite under the outer `try` (any failure there degrades to the solid
background frame); when an effect chain is configured, run it under the
inner `try` (any failure there keeps the pre-effect composite).  The result
is the frame handed to `encoder.write_frame` (the encoder itself is modelled
as infallible — encoder failures are the spec's separate fatal class). -/
def processFrame (o : RenderOracle) (res : ℤ × ℤ) (bg : ℕ × ℕ × ℕ × ℕ)
    (useVideo : Bool) (k : ℕ) : Image :=
  match (do
      let a ← o.raster k
      if useVideo then o.composite k a else pure a : Except String Image) with
  | .error _ => solidFrame res bg
  | .ok b =>
      if o.effects.isEmpty then b
      else
        match effectChain o k b with
        | .ok c => c
        | .error _ => b

/-- The whole frame loop: the list of frames written to the encoder, in
order, for an `n`-frame timeline. -/
def renderAll (o : RenderOracle) (res : ℤ × ℤ) (bg : ℕ × ℕ × ℕ × ℕ)
    (useVideo : Bool) (n : ℕ) : List Image :=
  (List.range n).map (processFrame o res bg useVideo)

instance exceptDecEq {ε α : Type} [DecidableEq ε] [DecidableEq α] :
    DecidableEq (Except ε α)
  | .error e1, .error e2 =>
      if h : e1 = e2 then .isTrue (by rw [h])
      else .isFalse (fun hc => h (by cases hc; rfl))
  | .error _, .ok _ => .isFalse (fun hc => by cases hc)
  | .ok _, .error _ => .isFalse (fun hc => by cases hc)
  | .ok a1, .ok a2 =>
      if h : a1 = a2 then .isTrue (by rw [h])
      else .isFalse (fun hc => h (by cases hc; rfl))

/-- `EasingFunction.linear` over ℚ. -/
def linearQ : ℚ → ℚ := fun t => t

/-- A property value is a scalar: a number or a string (no list, no `None`).
Keyframe dicts in practice hold scalars; the endpoint-exactness results below
are stated for them. -/
def scalarVal (v : Value) : Prop := (∃ q, v = Value.num q) ∨ (∃ s, v = Value.str s)

/-- All values of a property dict are scalars. -/
def scalarProps (p : Props) : Prop := ∀ kv ∈ p, scalarVal kv.2

/-- A sample numeric interpretation of the easing tags (used only to
instantiate theorems that hold for EVERY interpretation). -/
def idEval : EasingTag → ℚ → ℚ := fun _ t => t

/-- A sample one-segment, one-word transcript of duration 1. -/
def sampleTranscript : Transcript :=
  ⟨[⟨"hi", 0, 1, [⟨"hi", 0, 1⟩]⟩], 1⟩

/-- A sample animation-free style configuration at 2 fps. -/
def sampleStyles : StyleConfig := { fps := 2 }

/-- The timeline compiled from the samples above. -/
def sampleTimeline : Timeline :=
  (compile idEval sampleTranscript sampleStyles 60).toOption.getD
    ⟨[], 0, 0, (0, 0), {}⟩

/-- A sample word-selector animation whose terminal keyframe sets
`opacity = 0.5`, differing from the base default `opacity = 1`. -/
def animFadeHalf : Animation :=
  { selector := "word",
    keyframes := [(0, [("opacity", Value.num 0)]), (1, [("opacity", Value.num (1/2))])],
    duration := 1, easing := "linear", delay := 0 }

/-- Styles carrying only `animFadeHalf`. -/
def stylesFadeHalf : StyleConfig := { animations := [animFadeHalf] }

/-- A sample word-selector animation whose keyframe map is non-empty but
contains neither a 0% nor a 100% key (only 50%). -/
def animMissingEnds : Animation :=
  { selector := "word", keyframes := [(1/2, [("opacity", Value.num 1)])],
    duration := 1, easing := "linear", delay := 0 }

/-- Styles at 1 fps carrying only `animMissingEnds`. -/
def stylesMissingEnds : StyleConfig := { fps := 1, animations := [animMissingEnds] }

/-- Sample collaborators whose second effect stage fails on every frame
(rasterization and compositing succeed). -/
def oracleEffectFail : RenderOracle where
  raster := fun _ => .ok [[(10, 20, 30, 255)]]
  composite := fun _ img => .ok img
  toGpu := fun _ img => .ok img
  effects := [fun _ img => .ok img, fun _ _ => .error "effect kernel failed"]
  toCpu := fun _ img => .ok img

/-- Sample collaborators whose GPU upload (`transfer_to_gpu`) fails on every
frame, while rasterization, compositing and the effect kernels themselves
succeed. -/
def oracleTransferFail : RenderOracle where
  raster := fun _ => .ok [[(10, 20, 30, 255)]]
  composite := fun _ img => .ok img
  toGpu := fun _ _ => .error "CUDA out of memory"
  effects := [fun _ img => .ok img]
  toCpu := fun _ img => .ok img

/-- Sample collaborators whose rasterizer fails on frame 1 only. -/
def oracleRasterFail : RenderOracle where
  raster := fun k => if k = 1 then .error "skia surface lost" else .ok [[(10, 20, 30, 255)]]
  composite := fun _ img => .ok img
  toGpu := fun _ img => .ok img
  effects := []
  toCpu := fun _ img => .ok img

end Captions

namespace Captions

/-! ### Helper lemmas -/

theorem renderAll_length (o : RenderOracle) (res : ℤ × ℤ) (bg : ℕ × ℕ × ℕ × ℕ)
    (useVideo : Bool) (n : ℕ) : (renderAll o res bg useVideo n).length = n := by
  simp [renderAll]

theorem renderAll_get? (o : RenderOracle) (res : ℤ × ℤ) (bg : ℕ × ℕ × ℕ × ℕ)
    (useVideo : Bool) (n k : ℕ) (hk : k < n) :
    (renderAll o res bg useVideo n).get? k = some (processFrame o res bg useVideo k) := by
  simp [renderAll, List.get?_eq_getElem?, hk]

theorem mapME_ok {α β ε : Type} {f : α → Except ε β} {xs : List α} {l : List β}
    (h : mapME f xs = .ok l) :
    l.length = xs.length ∧
    ∀ i (h1 : i < xs.length) (h2 : i < l.length),
      f (xs.get ⟨i, h1⟩) = .ok (l.get ⟨i, h2⟩) := by
  induction xs generalizing l with
  | nil =>
    unfold mapME at h
    simp only [Except.ok.injEq] at h
    subst h
    exact ⟨rfl, fun i h1 _ => absurd h1 (Nat.not_lt_zero i)⟩
  | cons x xs ih =>
    unfold mapME at h
    cases hx : f x with
    | error e => rw [hx] at h; exact absurd h (by simp [bind, Except.bind])
    | ok y =>
      rw [hx] at h
      simp only [bind, Except.bind] at h
      cases hrest : mapME f xs with
      | error e => rw [hrest] at h; exact absurd h (by simp)
      | ok ys =>
        rw [hrest] at h
        simp only [pure, Except.pure, Except.ok.injEq] at h
        subst h
        obtain ⟨hlen, hget⟩ := ih hrest
        refine ⟨by simp [hlen], ?_⟩
        intro i h1 h2
        cases i with
        | zero => simpa using hx
        | succ i =>
          simp only [List.get_cons_succ]
          exact hget i (Nat.lt_of_succ_lt_succ h1) (Nat.lt_of_succ_lt_succ h2)

theorem validateTranscript_duration {t t' : Transcript}
    (h : validateTranscript t = .ok t') : t'.duration = t.duration := by
  unfold validateTranscript at h
  split at h
  · exact absurd h (by simp)
  · dsimp only at h
    split at h
    · exact absurd h (by simp)
    · simp only [Except.ok.injEq] at h
      subst h
      rfl

theorem exceptOk_bind {ε α β : Type} (a : α) (f : α → Except ε β) :
    (Except.ok a >>= f : Except ε β) = f a := rfl

theorem exceptBind_ok {ε α β : Type} {x : Except ε α} {f : α → Except ε β} {b : β}
    (h : (x >>= f) = .ok b) : ∃ a, x = .ok a ∧ f a = .ok b := by
  cases x with
  | error e => simp [bind, Except.bind] at h
  | ok a => exact ⟨a, rfl, by simpa [bind, Except.bind] using h⟩

theorem lookupProp_mem_nodup {p : Props} (hnd : (p.map Prod.fst).Nodup)
    {kv : String × Value} (hmem : kv ∈ p) : lookupProp p kv.1 = some kv.2 := by
  induction p with
  | nil => cases hmem
  | cons a rest ih =>
    simp only [List.map_cons, List.nodup_cons] at hnd
    rcases List.mem_cons.mp hmem with h | h
    · subst h
      unfold lookupProp
      rw [List.find?_cons_of_pos _ (by simp)]
    · have hne : ¬(a.1 = kv.1) := by
        intro he
        exact hnd.1 (he ▸ List.mem_map.mpr ⟨kv, h, rfl⟩)
      unfold lookupProp
      rw [List.find?_cons_of_neg _ (by simpa using hne)]
      have := ih hnd.2 h
      unfold lookupProp at this
      exact this

theorem pget_mem_nodup {p : Props} (hnd : (p.map Prod.fst).Nodup) (hs : scalarProps p)
    {kv : String × Value} (hmem : kv ∈ p) : pget p kv.1 = some kv.2 := by
  unfold pget
  rw [lookupProp_mem_nodup hnd hmem]
  rcases hs kv hmem with ⟨q, hq⟩ | ⟨s, hq⟩ <;> rw [hq]

theorem interpolateValue_zero {v1 v2 : Value} (h1 : scalarVal v1) (h2 : scalarVal v2) :
    interpolateValue v1 v2 0 = v1 := by
  have hlt : ¬((0 : ℚ) > 1/2) := by norm_num
  rcases h1 with ⟨q1, rfl⟩ | ⟨s1, rfl⟩ <;> rcases h2 with ⟨q2, rfl⟩ | ⟨s2, rfl⟩ <;>
    simp [interpolateValue, hlt]

theorem interpolateValue_one {v1 v2 : Value} (h1 : scalarVal v1) (h2 : scalarVal v2) :
    interpolateValue v1 v2 1 = v2 := by
  rcases h1 with ⟨q1, rfl⟩ | ⟨s1, rfl⟩ <;> rcases h2 with ⟨q2, rfl⟩ | ⟨s2, rfl⟩
  · show Value.num (q1 + (q2 - q1) * 1) = Value.num q2
    congr 1
    ring
  · show (if (1 : ℚ) > 1/2 then Value.str s2 else Value.num q1) = Value.str s2
    rw [if_pos (by norm_num)]
  · show (if (1 : ℚ) > 1/2 then Value.num q2 else Value.str s1) = Value.num q2
    rw [if_pos (by norm_num)]
  · show (if (1 : ℚ) > 1/2 then Value.str s2 else Value.str s1) = Value.str s2
    rw [if_pos (by norm_num)]

theorem dedup_append_of_subset {α : Type} [DecidableEq α] :
    ∀ (l1 l2 : List α), (∀ x ∈ l1, x ∈ l2) → l2.Nodup → (l1 ++ l2).dedup = l2 := by
  intro l1
  induction l1 with
  | nil => intro l2 _ hnd; simpa using List.dedup_eq_self.mpr hnd
  | cons a l1 ih =>
    intro l2 h hnd
    have ha : a ∈ l1 ++ l2 := List.mem_append.mpr (Or.inr (h a (List.mem_cons_self a l1)))
    rw [List.cons_append, List.dedup_cons_of_mem ha]
    exact ih l2 (fun x hx => h x (List.mem_cons_of_mem a hx)) hnd

theorem unionKeys_same {p1 p2 : Props} (hk : p2.map Prod.fst = p1.map Prod.fst)
    (hnd : (p1.map Prod.fst).Nodup) : unionKeys p1 p2 = p1.map Prod.fst := by
  unfold unionKeys
  rw [hk]
  exact dedup_append_of_subset _ _ (fun x hx => hx) hnd

theorem map_keys_entries (p : Props) (f : String → String × Value)
    (h : ∀ kv ∈ p, f kv.1 = kv) : (p.map Prod.fst).map f = p := by
  rw [List.map_map]
  have h2 : ∀ kv ∈ p, (f ∘ Prod.fst) kv = id kv := fun kv hm => h kv hm
  rw [List.map_congr_left h2, List.map_id]

theorem interpolateProps_zero {p1 p2 : Props}
    (hk : p2.map Prod.fst = p1.map Prod.fst)
    (hnd : (p1.map Prod.fst).Nodup)
    (hs1 : scalarProps p1) (hs2 : scalarProps p2) :
    interpolateProps p1 p2 0 = p1 := by
  unfold interpolateProps
  rw [unionKeys_same hk hnd]
  have hnd2 : (p2.map Prod.fst).Nodup := hk ▸ hnd
  apply map_keys_entries
  intro kv hmem
  have h1 := pget_mem_nodup hnd hs1 hmem
  have hmem2 : kv.1 ∈ p2.map Prod.fst := by
    rw [hk]; exact List.mem_map.mpr ⟨kv, hmem, rfl⟩
  obtain ⟨kv2, hkv2, hfst⟩ := List.mem_map.mp hmem2
  have h2 := pget_mem_nodup hnd2 hs2 hkv2
  rw [hfst] at h2
  simp only [h1, h2]
  rw [interpolateValue_zero (hs1 kv hmem) (hs2 kv2 hkv2)]

theorem interpolateProps_one {p1 p2 : Props}
    (hk : p2.map Prod.fst = p1.map Prod.fst)
    (hnd : (p1.map Prod.fst).Nodup)
    (hs1 : scalarProps p1) (hs2 : scalarProps p2) :
    interpolateProps p1 p2 1 = p2 := by
  unfold interpolateProps
  rw [unionKeys_same hk hnd]
  have hnd2 : (p2.map Prod.fst).Nodup := hk ▸ hnd
  rw [← hk]
  apply map_keys_entries
  intro kv hmem
  have h2 := pget_mem_nodup hnd2 hs2 hmem
  have hmem1 : kv.1 ∈ p1.map Prod.fst := by
    rw [← hk]; exact List.mem_map.mpr ⟨kv, hmem, rfl⟩
  obtain ⟨kv1, hkv1, hfst⟩ := List.mem_map.mp hmem1
  have h1 := pget_mem_nodup hnd hs1 hkv1
  rw [hfst] at h1
  simp only [h1, h2]
  rw [interpolateValue_one (hs1 kv1 hkv1) (hs2 kv hmem)]

theorem getLastD_cons_cons (x y : Keyframe) (l : List Keyframe) (d : Keyframe) :
    (x :: y :: l).getLastD d = (y :: l).getLastD d := rfl

theorem getLastD_mem : ∀ (l : List Keyframe) (d : Keyframe), l ≠ [] → l.getLastD d ∈ l := by
  intro l
  induction l with
  | nil => intro d h; exact absurd rfl h
  | cons a l ih =>
    intro d _
    cases l with
    | nil => simp [List.getLastD]
    | cons b l2 =>
      rw [getLastD_cons_cons]
      exact List.mem_cons_of_mem a (ih d (by simp))

theorem findBracket_at_one :
    ∀ (l : List Keyframe), l.Pairwise (fun a b => a.time < b.time) →
      (l.getLastD default).time = 1 → 2 ≤ l.length →
      ∃ a, a ∈ l ∧ a.time < 1 ∧ findBracket 1 l = some (a, l.getLastD default) := by
  intro l
  induction l with
  | nil => intro _ _ hlen; simp at hlen
  | cons x rest ih =>
    intro hpw hlast hlen
    cases rest with
    | nil => simp at hlen
    | cons y rest2 =>
      obtain ⟨hxall, hpw2⟩ := List.pairwise_cons.mp hpw
      cases rest2 with
      | nil =>
        have hy : ((x :: [y]).getLastD default) = y := rfl
        rw [hy] at hlast ⊢
        have hxy : x.time < y.time := hxall y (by simp)
        refine ⟨x, by simp, by rw [← hlast]; exact hxy, ?_⟩
        unfold findBracket
        rw [if_pos ⟨le_of_lt (by rw [← hlast]; exact hxy), le_of_eq hlast.symm⟩]
      | cons z rest3 =>
        have hstep : ((x :: y :: z :: rest3).getLastD default)
            = ((y :: z :: rest3).getLastD default) := rfl
        rw [hstep] at hlast ⊢
        obtain ⟨a, hmem, hlt, hfb⟩ := ih hpw2 hlast (by simp)
        have hylast : ((y :: z :: rest3).getLastD default) ∈ z :: rest3 := by
          rw [getLastD_cons_cons]
          exact getLastD_mem (z :: rest3) y (by simp)
        have hy1 : y.time < 1 := by
          obtain ⟨hyall, _⟩ := List.pairwise_cons.mp hpw2
          rw [← hlast]
          exact hyall _ hylast
        refine ⟨a, List.mem_cons_of_mem x hmem, hlt, ?_⟩
        unfold findBracket
        rw [if_neg (fun hc => absurd hc.2 (not_le.mpr hy1))]
        exact hfb

theorem mapME_ok_of_all {α β ε : Type} {f : α → Except ε β} {g : α → β} :
    ∀ {xs : List α}, (∀ x ∈ xs, f x = .ok (g x)) → mapME f xs = .ok (xs.map g) := by
  intro xs
  induction xs with
  | nil => intro _; rfl
  | cons x rest ih =>
    intro h
    unfold mapME
    rw [h x (List.mem_cons_self x rest)]
    simp only [bind, Except.bind]
    rw [ih (fun y hy => h y (List.mem_cons_of_mem x hy))]
    rfl

theorem mapME_isOk_of_all {α β ε : Type} {f : α → Except ε β} :
    ∀ {xs : List α}, (∀ x ∈ xs, ∃ y, f x = .ok y) → ∃ l, mapME f xs = .ok l := by
  intro xs
  induction xs with
  | nil => intro _; exact ⟨[], rfl⟩
  | cons x rest ih =>
    intro h
    obtain ⟨y, hy⟩ := h x (List.mem_cons_self x rest)
    obtain ⟨l, hl⟩ := ih (fun z hz => h z (List.mem_cons_of_mem x hz))
    refine ⟨y :: l, ?_⟩
    unfold mapME
    rw [hy]
    simp only [bind, Except.bind]
    rw [hl]
    rfl

theorem mapME_error_of_exists {α β ε : Type} {f : α → Except ε β} {e0 : ε} :
    ∀ {xs : List α}, (∀ x ∈ xs, (∃ y, f x = .ok y) ∨ f x = .error e0) →
      (∃ x ∈ xs, f x = .error e0) → mapME f xs = .error e0 := by
  intro xs
  induction xs with
  | nil => intro _ h; simp at h
  | cons x rest ih =>
    intro hall hex
    rcases hall x (List.mem_cons_self x rest) with ⟨y, hy⟩ | he
    · have hex2 : ∃ z ∈ rest, f z = .error e0 := by
        obtain ⟨z, hz, hze⟩ := hex
        rcases List.mem_cons.mp hz with rfl | hz2
        · rw [hy] at hze; cases hze
        · exact ⟨z, hz2, hze⟩
      unfold mapME
      rw [hy]
      simp only [bind, Except.bind]
      rw [ih (fun z hz => hall z (List.mem_cons_of_mem x hz)) hex2]
    · unfold mapME
      rw [he]
      rfl

theorem mapME_ok_or_error {α β ε : Type} {f : α → Except ε β} {e0 : ε} :
    ∀ {xs : List α}, (∀ x ∈ xs, (∃ y, f x = .ok y) ∨ f x = .error e0) →
      (∃ l, mapME f xs = .ok l) ∨ mapME f xs = .error e0 := by
  intro xs
  induction xs with
  | nil => intro _; exact Or.inl ⟨[], rfl⟩
  | cons x rest ih =>
    intro h
    rcases h x (List.mem_cons_self x rest) with ⟨y, hy⟩ | he
    · rcases ih (fun z hz => h z (List.mem_cons_of_mem x hz)) with ⟨l, hl⟩ | hl
      · refine Or.inl ⟨y :: l, ?_⟩
        unfold mapME
        rw [hy]
        simp only [bind, Except.bind]
        rw [hl]
        rfl
      · refine Or.inr ?_
        unfold mapME
        rw [hy]
        simp only [bind, Except.bind]
        rw [hl]
    · refine Or.inr ?_
      unfold mapME
      rw [he]
      rfl

theorem sortKeyframes_idem (l : List Keyframe) :
    sortKeyframes (sortKeyframes l) = sortKeyframes l :=
  (List.sorted_insertionSort kfLe l).insertionSort_eq

theorem sortKeyframes_ne_nil {l : List Keyframe} (h : l ≠ []) : sortKeyframes l ≠ [] := by
  intro hc
  unfold sortKeyframes at hc
  have := congrArg List.length hc
  rw [List.length_insertionSort] at this
  exact h (List.length_eq_zero.mp this)

theorem validateKeyframes_bad (l : List Keyframe) (hne : l ≠ [])
    (hbad : (l.headD default).time ≠ 0 ∨ (l.getLastD default).time ≠ 1) :
    validateKeyframes l = .error
      (if (l.headD default).time ≠ 0 then "First keyframe must be at time 0.0"
       else "Last keyframe must be at time 1.0") := by
  cases l with
  | nil => exact absurd rfl hne
  | cons f rest =>
    unfold validateKeyframes
    dsimp only
    simp only [List.headD_cons] at hbad ⊢
    by_cases h0 : f.time ≠ 0
    · rw [if_pos h0, if_pos h0]
    · have h1 : ((f :: rest).getLastD default).time ≠ 1 := by
        rcases hbad with hb | hb
        · exact absurd hb h0
        · exact hb
      rw [if_neg h0, if_pos h1, if_neg h0]

theorem foldlM_effects_congr (j : ℕ)
    (l1 l2 : List (ℕ → Image → Except String Image))
    (h : l1.map (fun f => f j) = l2.map (fun f => f j)) :
    ∀ t, l1.foldlM (fun acc eff => eff j acc) t = l2.foldlM (fun acc eff => eff j acc) t := by
  induction l1 generalizing l2 with
  | nil => cases l2 with
    | nil => intro t; rfl
    | cons b bs => simp at h
  | cons a as ih =>
    cases l2 with
    | nil => simp at h
    | cons b bs =>
      simp only [List.map_cons, List.cons.injEq] at h
      intro t
      simp only [List.foldlM_cons, h.1]
      congr 1
      funext t2
      exact ih bs h.2 t2

/-! ### C4: effect-chain failure degrades to the pre-effect composite -/

/-- C4: if any stage of the GPU effect chain (device transfer, any effect of
the chain, or the transfer back) fails at frame `k` while rasterization and
compositing succeeded there producing composite `b`, then the frame written
at position `k` is exactly `b`; the written frame count always equals the
timeline's frame count (no effect failure aborts the render); and every
other frame `j ≠ k` is unaffected, in that its output depends only on the
collaborators' behaviour at `j`. -/
theorem effect_failure_writes_preeffect_composite
    (o o2 : RenderOracle) (res : ℤ × ℤ) (bg : ℕ × ℕ × ℕ × ℕ) (useVideo : Bool)
    (n k : ℕ) (a b : Image) (e : String)
    (hk : k < n)
    (hraster : o.raster k = .ok a)
    (hcomp : (if useVideo then o.composite k a else pure a) = Except.ok b)
    (heff : o.effects ≠ [])
    (hchain : effectChain o k b = .error e) :
    (renderAll o res bg useVideo n).get? k = some b ∧
    (renderAll o res bg useVideo n).length = n ∧
    (∀ j, j ≠ k →
      o.raster j = o2.raster j →
      (∀ img, o.composite j img = o2.composite j img) →
      (∀ img, o.toGpu j img = o2.toGpu j img) →
      (∀ img, o.toCpu j img = o2.toCpu j img) →
      o.effects.map (fun f => f j) = o2.effects.map (fun f => f j) →
      processFrame o res bg useVideo j = processFrame o2 res bg useVideo j) := by
  refine ⟨?_, renderAll_length o res bg useVideo n, ?_⟩
  · rw [renderAll_get? o res bg useVideo n k hk]
    unfold processFrame
    rw [hraster]
    simp only [bind, Except.bind]
    rw [hcomp]
    have hne : o.effects.isEmpty = false := by
      cases h : o.effects with
      | nil => exact absurd h heff
      | cons x xs => rfl
    simp [hne, hchain]
  · intro j hj hr hc hg hcpu heq
    unfold processFrame
    have hie : o.effects.isEmpty = o2.effects.isEmpty := by
      have hl : o.effects.length = o2.effects.length := by
        have := congrArg List.length heq
        simpa using this
      cases h1 : o.effects <;> cases h2 : o2.effects <;>
        simp [h1, h2] at hl ⊢
    have hchainj : ∀ img, effectChain o j img = effectChain o2 j img := by
      intro img
      unfold effectChain
      rw [hg img]
      cases o2.toGpu j img with
      | error e => rfl
      | ok t =>
        simp only [bind, Except.bind]
        rw [foldlM_effects_congr j o.effects o2.effects heq t]
        cases o2.effects.foldlM (fun acc eff => eff j acc) t with
        | error e => rfl
        | ok t2 => exact hcpu t2
    rw [hr]
    cases o2.raster j with
    | error e => rfl
    | ok a2 =>
      simp only [bind, Except.bind]
      have : (if useVideo then o.composite j a2 else pure a2)
           = (if useVideo then o2.composite j a2 else pure a2) := by
        cases useVideo <;> simp [hc a2]
      rw [this]
      cases (if useVideo then o2.composite j a2 else pure a2) with
      | error e => rfl
      | ok b2 =>
        rw [hie]
        simp only [hchainj]

/-- Witness for C4: the theorem applied to the concrete collaborator set
whose second effect stage fails on a 3-frame render. -/
theorem effect_failure_writes_preeffect_composite_witness :
    (renderAll oracleEffectFail (1, 1) (0, 0, 0, 255) false 3).get? 1
      = some [[(10, 20, 30, 255)]] ∧
    (renderAll oracleEffectFail (1, 1) (0, 0, 0, 255) false 3).length = 3 :=
  ⟨(effect_failure_writes_preeffect_composite oracleEffectFail oracleEffectFail
      (1, 1) (0, 0, 0, 255) false 3 1 [[(10, 20, 30, 255)]] [[(10, 20, 30, 255)]]
      "effect kernel failed" (by decide) rfl rfl (List.cons_ne_nil _ _) rfl).1,
   (effect_failure_writes_preeffect_composite oracleEffectFail oracleEffectFail
      (1, 1) (0, 0, 0, 255) false 3 1 [[(10, 20, 30, 255)]] [[(10, 20, 30, 255)]]
      "effect kernel failed" (by decide) rfl rfl (List.cons_ne_nil _ _) rfl).2.1⟩

/-! ### C3: rendering failure degrades to a solid background frame -/

/-- Counterexample to C3 as stated: the claim includes GPU **transfer**
errors among the failures replaced by a solid background frame, but a
failing `transfer_to_gpu` is caught by the inner effect-chain handler
(pipeline.py lines 238-244), so the frame written is the pre-effect
composite — here `[[(10,20,30,255)]]` — and not the solid background frame
`[[(0,0,0,255)]]`. -/
theorem transfer_failure_frame_not_solid :
    oracleTransferFail.toGpu 0 [[(10, 20, 30, 255)]] = .error "CUDA out of memory" ∧
    (renderAll oracleTransferFail (1, 1) (0, 0, 0, 255) false 1).get? 0
      = some [[(10, 20, 30, 255)]] ∧
    ([[(10, 20, 30, 255)]] : Image) ≠ solidFrame (1, 1) (0, 0, 0, 255) := by
  refine ⟨rfl, ?_, by decide⟩
  rw [renderAll_get? _ _ _ _ 1 0 (by decide)]
  rfl

/-- C3 (amended): if rasterization fails at frame `k`, or rasterization
succeeds and background compositing fails at frame `k`, the frame written to
the encoder at position `k` is the solid frame of the configured background
colour and alpha at the timeline's resolution, and the number of frames
written still equals the compiled frame count, each at its own position.
(A GPU-transfer failure is instead caught by the effect-chain handler and
yields the pre-effect composite.) -/
theorem render_failure_writes_solid_frame
    (o : RenderOracle) (res : ℤ × ℤ) (bg : ℕ × ℕ × ℕ × ℕ) (useVideo : Bool)
    (n k : ℕ) (e : String) (hk : k < n)
    (hfail : o.raster k = .error e ∨
      (∃ a, o.raster k = .ok a ∧ useVideo = true ∧ o.composite k a = .error e)) :
    (renderAll o res bg useVideo n).get? k = some (solidFrame res bg) ∧
    (renderAll o res bg useVideo n).length = n := by
  refine ⟨?_, renderAll_length o res bg useVideo n⟩
  rw [renderAll_get? o res bg useVideo n k hk]
  unfold processFrame
  rcases hfail with hr | ⟨a, hr, hv, hc⟩
  · rw [hr]
    rfl
  · rw [hr]
    simp only [bind, Except.bind]
    rw [hv]
    simp only [if_true]
    rw [hc]

/-- Witness for C3 (amended): the theorem applied to the collaborator set
whose rasterizer fails on frame 1 of a 3-frame render. -/
theorem render_failure_writes_solid_frame_witness :
    (renderAll oracleRasterFail (2, 1) (7, 8, 9, 100) false 3).get? 1
      = some (solidFrame (2, 1) (7, 8, 9, 100)) ∧
    (renderAll oracleRasterFail (2, 1) (7, 8, 9, 100) false 3).length = 3 :=
  render_failure_writes_solid_frame oracleRasterFail (2, 1) (7, 8, 9, 100) false 3 1
    "skia surface lost" (by decide) (Or.inl rfl)

/-! ### C2: compiled frame count and timestamps -/

/-- C2: for a transcript of duration `D > 0` and a style config with
`fps = F > 0`, a successful compile yields exactly `⌊D·F⌋ + 1` frames; frame
`i`'s timestamp is `i/F`; consecutive timestamps differ by the fixed cadence
`1/F`; and timestamps are strictly increasing. -/
theorem compile_frame_count_and_timestamps
    (evalE : EasingTag → ℚ → ℚ) (t : Transcript) (s : StyleConfig) (fps0 : ℤ)
    (tl : Timeline)
    (hD : 0 < t.duration) (hF : 0 < s.fps)
    (hok : compile evalE t s fps0 = .ok tl) :
    tl.frames.length = (⌊t.duration * (s.fps : ℚ)⌋).toNat + 1 ∧
    (∀ i (h : i < tl.frames.length),
      (tl.frames.get ⟨i, h⟩).timestamp = (i : ℚ) / (s.fps : ℚ)) ∧
    (∀ i (hi : i < tl.frames.length) (hi1 : i + 1 < tl.frames.length),
      (tl.frames.get ⟨i + 1, hi1⟩).timestamp
        = (tl.frames.get ⟨i, hi⟩).timestamp + 1 / (s.fps : ℚ)) ∧
    (∀ i j (hi : i < tl.frames.length) (hj : j < tl.frames.length), i < j →
      (tl.frames.get ⟨i, hi⟩).timestamp < (tl.frames.get ⟨j, hj⟩).timestamp) := by
  have hFne : s.fps ≠ 0 := by exact_mod_cast ne_of_gt hF
  have hFQ : (0 : ℚ) < (s.fps : ℚ) := by exact_mod_cast hF
  unfold compile at hok
  obtain ⟨t2, hvt, hok⟩ := exceptBind_ok hok
  obtain ⟨u, hvs, hok⟩ := exceptBind_ok hok
  dsimp only at hok
  rw [if_pos hFne] at hok
  obtain ⟨frames, hmap, hok⟩ := exceptBind_ok hok
  simp only [pure, Except.pure, Except.ok.injEq] at hok
  subst hok
  obtain ⟨hlen, hget⟩ := mapME_ok hmap
  have hdur : t2.duration = t.duration := validateTranscript_duration hvt
  have htr : truncRat (t2.duration * (s.fps : ℚ)) = ⌊t.duration * (s.fps : ℚ)⌋ := by
    rw [hdur]
    unfold truncRat
    rw [if_pos (by positivity)]
    rw [Rat.floor_def', ← Rat.floor_def]
  have hlen2 : frames.length = ⌊t.duration * (s.fps : ℚ)⌋.toNat + 1 := by
    rw [hlen, List.length_range, htr]
  have hts : ∀ i (h : i < frames.length),
      (frames.get ⟨i, h⟩).timestamp = (i : ℚ) / (s.fps : ℚ) := by
    intro i h
    have h1 : i < (List.range ((truncRat (t2.duration * (s.fps : ℚ))).toNat + 1)).length := by
      rw [List.length_range]
      rw [hlen, List.length_range] at h
      exact h
    have := hget i h1 h
    rw [List.get_range] at this
    obtain ⟨els, _, hfr⟩ := exceptBind_ok this
    simp only [pure, Except.pure, Except.ok.injEq] at hfr
    rw [← hfr]
    simp [div_eq_mul_inv]
  refine ⟨hlen2, hts, ?_, ?_⟩
  · intro i hi hi1
    rw [hts i hi, hts (i + 1) hi1]
    push_cast
    field_simp
  · intro i j hi hj hij
    rw [hts i hi, hts j hj]
    apply div_lt_div_of_pos_right _ hFQ
    exact_mod_cast hij

unseal Rat.mul Rat.add Rat.sub Rat.inv in
/-- Witness for C2: the theorem applied to the sample one-word transcript of
duration 1 at 2 fps, whose compiled timeline has `⌊1·2⌋+1 = 3` frames with
timestamps 0, 1/2, 1. -/
theorem compile_frame_count_and_timestamps_witness :
    sampleTimeline.frames.length = 3 ∧
    (sampleTimeline.frames.get ⟨1, by decide⟩).timestamp = 1 / 2 := by
  have h := compile_frame_count_and_timestamps idEval sampleTranscript sampleStyles 60
      sampleTimeline (by decide) (by decide) rfl
  refine ⟨h.1.trans ?_, (h.2.1 1 (by decide)).trans ?_⟩
  · have h2 : sampleTranscript.duration * ((sampleStyles.fps : ℤ) : ℚ) = 2 := by decide
    rw [h2, Rat.floor_def]
    decide
  · norm_num [sampleStyles]

/-! ### C8: easing lookup is total and case-insensitive -/

/-- C8: easing lookup never raises (it is a total function): two names equal
up to letter case resolve to the same curve, and a name matching no registry
key even case-insensitively resolves to linear. -/
theorem easing_lookup_case_insensitive_and_total :
    (∀ a b : String, lowerStr a = lowerStr b →
      getEasingFunction a = getEasingFunction b) ∧
    (∀ name : String, (∀ kv ∈ easingMap, lowerStr kv.1 ≠ lowerStr name) →
      getEasingFunction name = .linear) := by
  have key : ∀ name : String, getEasingFunction name =
      (match easingMap.find? (fun kv => lowerStr kv.1 = lowerStr name) with
       | some kv => kv.2
       | none => EasingTag.linear) := by
    intro name
    unfold getEasingFunction
    cases hex : easingMap.find? (fun kv => kv.1 = name) with
    | none => rfl
    | some kv =>
      have hmem : kv ∈ easingMap := List.mem_of_find?_eq_some hex
      have hp := List.find?_some hex
      have hname : kv.1 = name := by simpa using hp
      have hall : ∀ kv2 ∈ easingMap,
          easingMap.find? (fun kv3 => lowerStr kv3.1 = lowerStr kv2.1) = some kv2 := by decide
      rw [← hname]
      rw [hall kv hmem]
  refine ⟨?_, ?_⟩
  · intro a b hab
    rw [key a, key b, hab]
  · intro name h
    rw [key name]
    cases hf : easingMap.find? (fun kv => lowerStr kv.1 = lowerStr name) with
    | none => rfl
    | some kv =>
      have hmem : kv ∈ easingMap := List.mem_of_find?_eq_some hf
      have hp := List.find?_some hf
      have : lowerStr kv.1 = lowerStr name := by simpa using hp
      exact absurd this (h kv hmem)

/-- Witness for C8: `"EASEINOUTQUAD"` resolves like `"easeInOutQuad"`, and an
unknown name resolves to linear. -/
theorem easing_lookup_case_insensitive_and_total_witness :
    getEasingFunction "EASEINOUTQUAD" = getEasingFunction "easeInOutQuad" ∧
    getEasingFunction "no-such-easing" = .linear :=
  ⟨easing_lookup_case_insensitive_and_total.1 "EASEINOUTQUAD" "easeInOutQuad" (by decide),
   easing_lookup_case_insensitive_and_total.2 "no-such-easing" (by decide)⟩

/-! ### C10: a negative eased time falls through to the last keyframe -/

/-- C10: for every keyframe set whose times are non-negative (true of every
validated set) and every easing function and input whose eased value is
strictly negative (e.g. easeInBack overshooting below 0 for small t), the
bracket scan finds no pair with `kf1.time ≤ eased_t`, so `interpolate`
returns the LAST keyframe's properties — the below-range fallback and the
beyond-range fallback are the same last-keyframe branch. -/
theorem negative_eased_time_returns_last_keyframe
    (kfs : List Keyframe) (f : ℚ → ℚ) (t : ℚ)
    (hpos : ∀ kf ∈ kfs, 0 ≤ kf.time)
    (hneg : f (clamp01 t) < 0) :
    findBracket (f (clamp01 t)) kfs = none ∧
    interpolate kfs f t = (kfs.getLastD default).properties := by
  have hfb : ∀ l : List Keyframe, (∀ kf ∈ l, 0 ≤ kf.time) →
      findBracket (f (clamp01 t)) l = none := by
    intro l
    induction l with
    | nil => intro _; rfl
    | cons k1 rest ih =>
      intro hl
      cases rest with
      | nil => rfl
      | cons k2 r2 =>
        unfold findBracket
        rw [if_neg, ih (fun kf hkf => hl kf (List.mem_cons_of_mem k1 hkf))]
        rintro ⟨h1, _⟩
        have h0 : (0 : ℚ) ≤ k1.time := hl k1 (List.mem_cons_self k1 _)
        exact absurd (le_trans h0 h1) (not_le.mpr hneg)
  refine ⟨hfb kfs hpos, ?_⟩
  unfold interpolate
  dsimp only
  rw [hfb kfs hpos]

unseal Rat.mul Rat.add Rat.sub Rat.inv in
/-- Witness for C10: easeInBack at t = 1/2 eases to
`2.70158/8 − 1.70158/4 < 0`, and interpolation over the validated keyframe
set `{0: {opacity: 0}, 1: {opacity: 1}}` returns the LAST keyframe's
properties `{opacity: 1}`. -/
theorem negative_eased_time_returns_last_keyframe_witness :
    easeInBackQ (clamp01 (1/2)) < 0 ∧
    interpolate [⟨0, [("opacity", Value.num 0)]⟩, ⟨1, [("opacity", Value.num 1)]⟩]
      easeInBackQ (1/2) = [("opacity", Value.num 1)] :=
  ⟨by decide,
   (negative_eased_time_returns_last_keyframe
      [⟨0, [("opacity", Value.num 0)]⟩, ⟨1, [("opacity", Value.num 1)]⟩]
      easeInBackQ (1/2) (by decide) (by decide)).2⟩

/-! ### C7: linear interpolation midpoint and endpoints -/

unseal Rat.mul Rat.add Rat.sub Rat.inv in
/-- Counterexample to C7 as stated: for the valid keyframe set
`{0: {opacity: 0}, 1: {opacity: 1, scale: 2}}` with linear easing,
`interpolate(0)` does NOT return exactly the first keyframe's properties:
the merge runs over the union of both keyframes' keys, so the result carries
`scale: 2` from the terminal keyframe, a key the first keyframe does not
define at all. -/
theorem interpolate_zero_not_first_properties :
    lookupProp (interpolate [⟨0, [("opacity", Value.num 0)]⟩,
        ⟨1, [("opacity", Value.num 1), ("scale", Value.num 2)]⟩] linearQ 0) "scale"
      = some (Value.num 2) ∧
    lookupProp [("opacity", Value.num 0)] "scale" = none ∧
    interpolate [⟨0, [("opacity", Value.num 0)]⟩,
        ⟨1, [("opacity", Value.num 1), ("scale", Value.num 2)]⟩] linearQ 0
      ≠ [("opacity", Value.num 0)] := by
  refine ⟨by decide, by decide, by decide⟩

unseal Rat.mul Rat.add Rat.sub Rat.inv in
/-- C7 (amended): `Interpolator({0%:{opacity:0},100%:{opacity:1}},
"linear").interpolate(0.5) = {opacity: 0.5}` holds as stated; and
`interpolate(0)`/`interpolate(1)` return exactly the first/last keyframe's
properties for every keyframe set with strictly increasing times from 0 to
1 whose keyframes all define the same keys (without duplicates) with scalar
(number or string) values.  When keyframes define different key sets, keys
defined only in the neighbouring keyframe leak into the result (see the
counterexample). -/
theorem interpolate_linear_midpoint_and_endpoints :
    interpolate [⟨0, [("opacity", Value.num 0)]⟩, ⟨1, [("opacity", Value.num 1)]⟩]
      linearQ (1/2) = [("opacity", Value.num (1/2))] ∧
    (∀ (kf0 kf1 : Keyframe) (rest : List Keyframe),
      (kf0 :: kf1 :: rest).Pairwise (fun a b => a.time < b.time) →
      kf0.time = 0 →
      (((kf0 :: kf1 :: rest).getLastD default).time = 1) →
      (∀ kf ∈ kf0 :: kf1 :: rest, kf.properties.map Prod.fst
        = kf0.properties.map Prod.fst) →
      (kf0.properties.map Prod.fst).Nodup →
      (∀ kf ∈ kf0 :: kf1 :: rest, scalarProps kf.properties) →
      interpolate (kf0 :: kf1 :: rest) linearQ 0 = kf0.properties ∧
      interpolate (kf0 :: kf1 :: rest) linearQ 1
        = ((kf0 :: kf1 :: rest).getLastD default).properties) := by
  constructor
  · decide
  · intro kf0 kf1 rest hpw h0 h1 hkeys hnd hscal
    have hne01 : kf0.time < kf1.time :=
      (List.pairwise_cons.mp hpw).1 kf1 (List.mem_cons_self kf1 rest)
    constructor
    · unfold interpolate
      dsimp only
      have hcl : linearQ (clamp01 0) = 0 := by
        simp [linearQ, clamp01]
      rw [hcl]
      have hfb : findBracket 0 (kf0 :: kf1 :: rest) = some (kf0, kf1) := by
        unfold findBracket
        rw [if_pos ⟨le_of_eq h0, le_of_lt (h0 ▸ hne01)⟩]
      rw [hfb]
      dsimp only
      rw [if_pos (ne_of_gt hne01), h0, sub_zero, zero_div]
      exact interpolateProps_zero
        (hkeys kf1 (List.mem_cons_of_mem kf0 (List.mem_cons_self kf1 rest))) hnd
        (hscal kf0 (List.mem_cons_self kf0 _))
        (hscal kf1 (List.mem_cons_of_mem kf0 (List.mem_cons_self kf1 rest)))
    · unfold interpolate
      dsimp only
      have hcl : linearQ (clamp01 1) = 1 := by
        simp [linearQ, clamp01]
      rw [hcl]
      obtain ⟨a, hmem, hlt, hfb⟩ :=
        findBracket_at_one (kf0 :: kf1 :: rest) hpw h1 (by simp)
      rw [hfb]
      dsimp only
      have hlast : ((kf0 :: kf1 :: rest).getLastD default).time = 1 := h1
      have hnea : ((kf0 :: kf1 :: rest).getLastD default).time ≠ a.time := by
        rw [hlast]; exact hlt.ne'
      rw [if_pos hnea, hlast]
      rw [div_self (sub_ne_zero.mpr hlt.ne')]
      have hmemlast : ((kf0 :: kf1 :: rest).getLastD default) ∈ kf0 :: kf1 :: rest :=
        getLastD_mem _ _ (by simp)
      have hka : a.properties.map Prod.fst = kf0.properties.map Prod.fst := hkeys a hmem
      have hklast : ((kf0 :: kf1 :: rest).getLastD default).properties.map Prod.fst
          = kf0.properties.map Prod.fst := hkeys _ hmemlast
      have hk2 : ((kf0 :: kf1 :: rest).getLastD default).properties.map Prod.fst
          = a.properties.map Prod.fst := hklast.trans hka.symm
      have hnda : (a.properties.map Prod.fst).Nodup := hka ▸ hnd
      exact interpolateProps_one hk2 hnda (hscal a hmem) (hscal _ hmemlast)

unseal Rat.mul Rat.add Rat.sub Rat.inv in
/-- Witness for C7 (amended): the general endpoint clause applied to the
two-keyframe opacity set, plus the concrete midpoint value. -/
theorem interpolate_linear_midpoint_and_endpoints_witness :
    interpolate [⟨0, [("opacity", Value.num 0)]⟩, ⟨1, [("opacity", Value.num 1)]⟩]
      linearQ 0 = [("opacity", Value.num 0)] ∧
    interpolate [⟨0, [("opacity", Value.num 0)]⟩, ⟨1, [("opacity", Value.num 1)]⟩]
      linearQ 1 = [("opacity", Value.num 1)] :=
  (interpolate_linear_midpoint_and_endpoints.2
    ⟨0, [("opacity", Value.num 0)]⟩ ⟨1, [("opacity", Value.num 1)]⟩ []
    (by norm_num [List.pairwise_cons]) rfl rfl
    (by
      intro kf hkf
      simp only [List.mem_cons, List.not_mem_nil, or_false] at hkf
      rcases hkf with rfl | rfl <;> rfl)
    (by simp)
    (by
      intro kf hkf
      simp only [List.mem_cons, List.not_mem_nil, or_false] at hkf
      rcases hkf with rfl | rfl <;>
        · intro kv hkv
          simp only [List.mem_cons, List.not_mem_nil, or_false] at hkv
          subst hkv
          exact Or.inl ⟨_, rfl⟩))

/-! ### C5: validator timing repairs -/

/-- C5: (1) a segment with non-empty words and `end ≤ start` has its bounds
reset to the min word start / max word end, the end padded to `start + 0.1`
if still degenerate; (2) a word with `end < start` is repaired to
`end = start + 0.01`, and a word with `end = start` to
`end = min(start + 0.01, segment.end)` (against the current segment end);
(3) the word-loop expansion only ever widens the running segment bounds,
never shrinks them, and the final bounds cover every repaired word. -/
theorem validator_repair_rules :
    (∀ (seg : Segment) (w0 : Word) (rest : List Word),
      seg.words = w0 :: rest → seg.«end» ≤ seg.start →
      resetBounds (if seg.start < 0 then 0 else seg.start) seg.«end» w0 rest
        = (segMinStart w0 rest,
           if segMaxEnd w0 rest ≤ segMinStart w0 rest
           then segMinStart w0 rest + 1/10 else segMaxEnd w0 rest)) ∧
    (∀ (e : ℚ) (w : Word),
      (w.«end» < w.start → fixWord e w = { w with «end» := w.start + 1/100 }) ∧
      (w.«end» = w.start → fixWord e w = { w with «end» := min (w.start + 1/100) e })) ∧
    (∀ (s e : ℚ) (ws : List Word),
      (processWords s e ws).1 ≤ s ∧ e ≤ (processWords s e ws).2.1 ∧
      ∀ w2 ∈ (processWords s e ws).2.2,
        (processWords s e ws).1 ≤ w2.start ∧ w2.«end» ≤ (processWords s e ws).2.1) := by
  refine ⟨?_, ?_, ?_⟩
  · intro seg w0 rest _ hdeg
    have hle : seg.«end» ≤ (if seg.start < 0 then 0 else seg.start) := by
      split
      · exact le_of_lt (lt_of_le_of_lt hdeg (by assumption))
      · exact hdeg
    unfold resetBounds
    rw [if_pos hle]
    dsimp only
    split <;> rfl
  · intro e w
    constructor
    · intro h
      unfold fixWord
      rw [if_pos h]
    · intro h
      unfold fixWord
      rw [if_neg (by rw [h]; exact lt_irrefl _), if_pos h]
  · intro s e ws
    induction ws generalizing s e with
    | nil => exact ⟨le_refl s, le_refl e, by intro w2 h; cases h⟩
    | cons w rest ih =>
      have hpw : processWords s e (w :: rest)
          = ((processWords (if (fixWord e w).start < s then (fixWord e w).start else s)
                (if (fixWord e w).«end» > e then (fixWord e w).«end» else e) rest).1,
             (processWords (if (fixWord e w).start < s then (fixWord e w).start else s)
                (if (fixWord e w).«end» > e then (fixWord e w).«end» else e) rest).2.1,
             fixWord e w ::
             (processWords (if (fixWord e w).start < s then (fixWord e w).start else s)
                (if (fixWord e w).«end» > e then (fixWord e w).«end» else e) rest).2.2) := rfl
      set w' := fixWord e w with hw'
      set s' := if w'.start < s then w'.start else s with hs'
      set e' := if w'.«end» > e then w'.«end» else e with he'
      obtain ⟨ih1, ih2, ih3⟩ := ih s' e'
      have hss : s' ≤ s := by
        rw [hs']; split
        · exact le_of_lt (by assumption)
        · exact le_refl s
      have hsw : s' ≤ w'.start := by
        rw [hs']; split
        · exact le_refl _
        · exact le_of_not_lt (by assumption)
      have hee : e ≤ e' := by
        rw [he']; split
        · exact le_of_lt (by assumption)
        · exact le_refl e
      have hew : w'.«end» ≤ e' := by
        rw [he']; split
        · exact le_refl _
        · exact le_of_not_lt (by assumption)
      rw [hpw]
      refine ⟨le_trans ih1 hss, le_trans hee ih2, ?_⟩
      intro w2 hmem
      rcases List.mem_cons.mp hmem with h | h
      · subst h
        exact ⟨le_trans ih1 hsw, le_trans hew ih2⟩
      · exact ih3 w2 h

unseal Rat.mul Rat.add Rat.sub Rat.inv in
/-- Witness for C5: the spec's own example — a segment with `end ≤ start`
and word bounds `[2, 5]` repairs to `start = 2, end = 5`; a word `(3, 2)`
with `end < start` repairs to `end = 3.01`; a zero-duration word `(1, 1)` in
a segment ending at 1.005 repairs to `end = min(1.01, 1.005) = 1.005`; and
the word loop expands the segment bounds of `[0, 1]` to cover a word
`(-1, 2)`. -/
theorem validator_repair_rules_witness :
    resetBounds (if (5 : ℚ) < 0 then 0 else 5) 3 ⟨"w", 2, 5⟩ []
      = (2, 5) ∧
    fixWord 10 ⟨"w", 3, 2⟩ = { text := "w", start := 3, «end» := 301/100 } ∧
    fixWord (201/200) ⟨"w", 1, 1⟩ = { text := "w", start := 1, «end» := 201/200 } ∧
    ((processWords 0 1 [⟨"w", -1, 2⟩]).1 ≤ 0 ∧
      1 ≤ (processWords 0 1 [⟨"w", -1, 2⟩]).2.1 ∧
      ∀ w2 ∈ (processWords 0 1 [⟨"w", -1, 2⟩]).2.2,
        (processWords 0 1 [⟨"w", -1, 2⟩]).1 ≤ w2.start ∧
        w2.«end» ≤ (processWords 0 1 [⟨"w", -1, 2⟩]).2.1) := by
  refine ⟨?_, ?_, ?_, validator_repair_rules.2.2 0 1 [⟨"w", -1, 2⟩]⟩
  · have h := validator_repair_rules.1 ⟨"s", 5, 3, [⟨"w", 2, 5⟩]⟩ ⟨"w", 2, 5⟩ []
      rfl (by decide)
    rw [h]
    decide
  · have h := (validator_repair_rules.2.1 10 ⟨"w", 3, 2⟩).1 (by decide)
    rw [h]
    decide
  · have h := (validator_repair_rules.2.1 (201/200) ⟨"w", 1, 1⟩).2 (by decide)
    rw [h]
    decide

/-! ### C6: validation is not idempotent in general -/

unseal Rat.mul Rat.add Rat.sub Rat.inv in
/-- Counterexample to C6 as stated: a zero-duration word starting after its
segment's end (`(5,5)` in a segment `[0,1]`) is clamped by the first run to
`end = min(5.01, 1) = 1 < start`; the second run sees `end < start`, repairs
it to `5.01` and expands the segment — the transcript changes again. -/
theorem validate_transcript_not_idempotent :
    validateTranscript ⟨[⟨"s", 0, 1, [⟨"a", 0, 1⟩, ⟨"b", 5, 5⟩]⟩], 1⟩
      = .ok ⟨[⟨"s", 0, 1, [⟨"a", 0, 1⟩, ⟨"b", 5, 1⟩]⟩], 1⟩ ∧
    validateTranscript ⟨[⟨"s", 0, 1, [⟨"a", 0, 1⟩, ⟨"b", 5, 1⟩]⟩], 1⟩
      = .ok ⟨[⟨"s", 0, 501/100, [⟨"a", 0, 1⟩, ⟨"b", 5, 501/100⟩]⟩], 1⟩ ∧
    (⟨[⟨"s", 0, 501/100, [⟨"a", 0, 1⟩, ⟨"b", 5, 501/100⟩]⟩], 1⟩ : Transcript)
      ≠ ⟨[⟨"s", 0, 1, [⟨"a", 0, 1⟩, ⟨"b", 5, 1⟩]⟩], 1⟩ :=
  ⟨by decide, by decide, by decide⟩

theorem processWords_id (s e : ℚ) :
    ∀ ws : List Word,
      (∀ w ∈ ws, s ≤ w.start ∧ w.«end» ≤ e ∧ w.start < w.«end») →
      processWords s e ws = (s, e, ws) := by
  intro ws
  induction ws with
  | nil => intro _; rfl
  | cons w rest ih =>
    intro h
    obtain ⟨hs, he, hlt⟩ := h w (List.mem_cons_self w rest)
    have hfix : fixWord e w = w := by
      unfold fixWord
      rw [if_neg (not_lt.mpr (le_of_lt hlt)), if_neg (ne_of_gt hlt)]
    have hstep : processWords s e (w :: rest)
        = ((processWords (if (fixWord e w).start < s then (fixWord e w).start else s)
              (if (fixWord e w).«end» > e then (fixWord e w).«end» else e) rest).1,
           (processWords (if (fixWord e w).start < s then (fixWord e w).start else s)
              (if (fixWord e w).«end» > e then (fixWord e w).«end» else e) rest).2.1,
           fixWord e w ::
           (processWords (if (fixWord e w).start < s then (fixWord e w).start else s)
              (if (fixWord e w).«end» > e then (fixWord e w).«end» else e) rest).2.2) := rfl
    rw [hstep, hfix, if_neg (not_lt.mpr hs), if_neg (not_lt.mpr he),
      ih (fun w2 h2 => h w2 (List.mem_cons_of_mem w h2))]

theorem filterMap_id_of {α : Type} (f : α → Option α) :
    ∀ l : List α, (∀ x ∈ l, f x = some x) → l.filterMap f = l := by
  intro l
  induction l with
  | nil => intro _; rfl
  | cons a rest ih =>
    intro h
    rw [List.filterMap_cons, h a (List.mem_cons_self a rest),
      ih (fun x hx => h x (List.mem_cons_of_mem a hx))]

/-- C6 (amended): validation is idempotent on every transcript satisfying
the well-formedness the validator aims at — a non-empty segment list, each
segment with non-empty words, non-negative start and bounds covering all its
words, and every word with `start < end`; on such a transcript
`validate_transcript` changes nothing.  (In general a second run CAN mutate
further: see the counterexample, where the zero-duration clamp leaves a word
with `end < start`; a segment reset to negative word bounds similarly
re-triggers repairs.) -/
theorem validate_transcript_idempotent_on_wellformed
    (t : Transcript)
    (hne : t.segments ≠ [])
    (hseg : ∀ seg ∈ t.segments,
      seg.words ≠ [] ∧ 0 ≤ seg.start ∧
      ∀ w ∈ seg.words, seg.start ≤ w.start ∧ w.«end» ≤ seg.«end» ∧ w.start < w.«end») :
    validateTranscript t = .ok t := by
  have hvs : ∀ seg ∈ t.segments, validateSegment seg = some seg := by
    intro seg hmem
    obtain ⟨hw, h0, hcov⟩ := hseg seg hmem
    unfold validateSegment
    rw [if_neg (not_lt.mpr h0)]
    cases hws : seg.words with
    | nil => exact absurd hws hw
    | cons w0 rest =>
      have hcov2 : ∀ w ∈ w0 :: rest,
          seg.start ≤ w.start ∧ w.«end» ≤ seg.«end» ∧ w.start < w.«end» := by
        rw [← hws]; exact hcov
      obtain ⟨h0s, h0e, h0lt⟩ := hcov2 w0 (List.mem_cons_self w0 rest)
      have hreset : resetBounds seg.start seg.«end» w0 rest = (seg.start, seg.«end») := by
        unfold resetBounds
        rw [if_neg (not_le.mpr (lt_of_le_of_lt h0s (lt_of_lt_of_le h0lt h0e)))]
      have hpw := processWords_id seg.start seg.«end» (w0 :: rest) hcov2
      dsimp only
      rw [hreset]
      dsimp only
      rw [hpw]
      dsimp only
      rw [← hws]
  unfold validateTranscript
  rw [if_neg (by simpa using hne)]
  dsimp only
  rw [filterMap_id_of validateSegment t.segments hvs]
  rw [if_neg (by simpa using hne)]

unseal Rat.mul Rat.add Rat.sub Rat.inv in
/-- Witness for C6 (amended): re-validating the already well-formed sample
transcript changes nothing. -/
theorem validate_transcript_idempotent_on_wellformed_witness :
    validateTranscript sampleTranscript = .ok sampleTranscript :=
  validate_transcript_idempotent_on_wellformed sampleTranscript (by decide)
    (by
      intro seg hmem
      simp only [sampleTranscript, List.mem_cons, List.not_mem_nil, or_false] at hmem
      subst hmem
      refine ⟨by decide, by decide, ?_⟩
      intro w hw
      simp only [List.mem_cons, List.not_mem_nil, or_false] at hw
      subst hw
      exact ⟨by decide, by decide, by decide⟩)

/-! ### C1: the terminal keyframe is NOT applied at progress 1.0 -/

unseal Rat.mul Rat.add Rat.sub Rat.inv in
/-- C1 (divergence evaluated at the failing input): a word-selector
animation `{0%: {opacity: 0}, 100%: {opacity: 0.5}}` of duration 1 on the
word `[0, 1]`, evaluated at timestamp 1, has local progress exactly 1.0; the
`if anim_progress < 1.0` guard of `_create_element` (pipeline.py line 139)
then skips interpolation entirely, so the produced element carries the BASE
DEFAULT `opacity = 1`, not the terminal keyframe's `opacity = 0.5` that the
spec requires to be applied explicitly at or after progress 1.0. -/
theorem terminal_keyframe_dropped_at_progress_one :
    animProgress animFadeHalf ⟨"hi", 0, 1⟩ 1 = 1 ∧
    (createElement idEval ⟨"hi", 0, 1⟩ stylesFadeHalf 1).map
      (fun e => lookupProp e "opacity") = .ok (some (Value.num 1)) ∧
    lookupProp [("opacity", Value.num (1/2))] "opacity" = some (Value.num (1/2)) ∧
    Value.num 1 ≠ Value.num (1/2) :=
  ⟨by decide, by decide, by decide, by decide⟩

/-! ### C9: style validation does not guarantee compilation -/

theorem getKeyframes_eval (a : Animation)
    (hrange : ∀ p ∈ a.keyframes, 0 ≤ p.1 ∧ p.1 ≤ 1) :
    getKeyframes a
      = .ok (sortKeyframes (a.keyframes.map (fun p => (⟨p.1, p.2⟩ : Keyframe)))) := by
  unfold getKeyframes
  rw [mapME_ok_of_all (g := fun p => (⟨p.1, p.2⟩ : Keyframe))
    (fun p hp => by rw [if_pos (hrange p hp)])]
  rfl

theorem mkInterpolator_err (a : Animation) (hkfne : a.keyframes ≠ [])
    (hbad : ((sortKeyframes (a.keyframes.map (fun p => (⟨p.1, p.2⟩ : Keyframe)))).headD
        default).time ≠ 0 ∨
      ((sortKeyframes (a.keyframes.map (fun p => (⟨p.1, p.2⟩ : Keyframe)))).getLastD
        default).time ≠ 1) :
    mkInterpolator (sortKeyframes (a.keyframes.map (fun p => (⟨p.1, p.2⟩ : Keyframe))))
      = .error (kfErrMsg a) := by
  unfold mkInterpolator
  dsimp only
  rw [sortKeyframes_idem]
  have hne : sortKeyframes (a.keyframes.map (fun p => (⟨p.1, p.2⟩ : Keyframe))) ≠ [] :=
    sortKeyframes_ne_nil (by simpa using hkfne)
  rw [validateKeyframes_bad _ hne hbad]
  rfl

theorem createElement_done (evalE : EasingTag → ℚ → ℚ) (w : Word) (s : StyleConfig)
    (a : Animation) (ts : ℚ)
    (hanims : s.animations = [a]) (hp : ¬ animProgress a w ts < 1) :
    ∃ p, createElement evalE w s ts = .ok p := by
  unfold createElement
  rw [hanims]
  simp only [List.foldlM_cons, List.foldlM_nil]
  by_cases hsel : a.selector = "word"
  · rw [if_pos hsel, if_neg hp]
    simp only [bind, Except.bind, pure, Except.pure]
    cases s.effects with
    | none => exact ⟨_, rfl⟩
    | some eff =>
      obtain ⟨blur, glow, shadow⟩ := eff
      cases shadow with
      | none => exact ⟨_, rfl⟩
      | some sh => exact ⟨_, rfl⟩
  · rw [if_neg hsel]
    simp only [bind, Except.bind, pure, Except.pure]
    cases s.effects with
    | none => exact ⟨_, rfl⟩
    | some eff =>
      obtain ⟨blur, glow, shadow⟩ := eff
      cases shadow with
      | none => exact ⟨_, rfl⟩
      | some sh => exact ⟨_, rfl⟩

theorem createElement_err (evalE : EasingTag → ℚ → ℚ) (w : Word) (s : StyleConfig)
    (a : Animation) (ts : ℚ)
    (hanims : s.animations = [a]) (hsel : a.selector = "word")
    (hkfne : a.keyframes ≠ [])
    (hrange : ∀ p ∈ a.keyframes, 0 ≤ p.1 ∧ p.1 ≤ 1)
    (hbad : ((sortKeyframes (a.keyframes.map (fun p => (⟨p.1, p.2⟩ : Keyframe)))).headD
        default).time ≠ 0 ∨
      ((sortKeyframes (a.keyframes.map (fun p => (⟨p.1, p.2⟩ : Keyframe)))).getLastD
        default).time ≠ 1)
    (hp : animProgress a w ts < 1) :
    createElement evalE w s ts = .error (kfErrMsg a) := by
  unfold createElement
  rw [hanims]
  simp only [List.foldlM_cons, List.foldlM_nil]
  rw [if_pos hsel, if_pos hp, getKeyframes_eval a hrange]
  simp only [bind, Except.bind]
  rw [mkInterpolator_err a hkfne hbad]

theorem getElements_cases (evalE : EasingTag → ℚ → ℚ) (t : Transcript) (s : StyleConfig)
    (a : Animation) (ts : ℚ)
    (hanims : s.animations = [a]) (hsel : a.selector = "word")
    (hkfne : a.keyframes ≠ [])
    (hrange : ∀ p ∈ a.keyframes, 0 ≤ p.1 ∧ p.1 ≤ 1)
    (hbad : ((sortKeyframes (a.keyframes.map (fun p => (⟨p.1, p.2⟩ : Keyframe)))).headD
        default).time ≠ 0 ∨
      ((sortKeyframes (a.keyframes.map (fun p => (⟨p.1, p.2⟩ : Keyframe)))).getLastD
        default).time ≠ 1) :
    (¬ badFrame t a ts → ∃ l, getElementsAtTime evalE t s ts = .ok l) ∧
    (badFrame t a ts → getElementsAtTime evalE t s ts = .error (kfErrMsg a)) := by
  have hword : ∀ w : Word, (∃ p, createElement evalE w s ts = .ok p) ∨
      createElement evalE w s ts = .error (kfErrMsg a) := by
    intro w
    by_cases hp : animProgress a w ts < 1
    · exact Or.inr (createElement_err evalE w s a ts hanims hsel hkfne hrange hbad hp)
    · exact Or.inl (createElement_done evalE w s a ts hanims hp)
  constructor
  · intro hnb
    unfold getElementsAtTime
    have hpt : ∀ seg ∈ t.segments, ∃ y,
        (if seg.start ≤ ts ∧ ts ≤ seg.«end» then
          mapME (fun w => createElement evalE w s ts)
            (seg.words.filter (fun w => decide (w.start ≤ ts ∧ ts ≤ w.«end»)))
        else pure ([] : List Props)) = .ok y := by
      intro seg hseg
      by_cases hact : seg.start ≤ ts ∧ ts ≤ seg.«end»
      · rw [if_pos hact]
        apply mapME_isOk_of_all
        intro w hw
        have hwm := List.mem_filter.mp hw
        have hwact : w.start ≤ ts ∧ ts ≤ w.«end» := by simpa using hwm.2
        rcases hword w with h | h
        · exact h
        · exfalso
          by_cases hp : animProgress a w ts < 1
          · exact hnb ⟨seg, hseg, hact, w, hwm.1, hwact, hp⟩
          · obtain ⟨p, hop⟩ := createElement_done evalE w s a ts hanims hp
            rw [hop] at h
            cases h
      · rw [if_neg hact]
        exact ⟨[], rfl⟩
    obtain ⟨ls, hls⟩ := mapME_isOk_of_all hpt
    refine ⟨ls.flatten, ?_⟩
    rw [hls]
    rfl
  · intro hb
    obtain ⟨seg, hseg, hact, w, hwmem, hwact, hp⟩ := hb
    unfold getElementsAtTime
    have hmap : mapME (fun seg => if seg.start ≤ ts ∧ ts ≤ seg.«end» then
        mapME (fun w => createElement evalE w s ts)
          (seg.words.filter (fun w => decide (w.start ≤ ts ∧ ts ≤ w.«end»)))
        else pure []) t.segments = .error (kfErrMsg a) := by
      apply mapME_error_of_exists
      · intro seg2 _
        by_cases hact2 : seg2.start ≤ ts ∧ ts ≤ seg2.«end»
        · rw [if_pos hact2]
          exact mapME_ok_or_error (fun w _ => hword w)
        · rw [if_neg hact2]
          exact Or.inl ⟨[], rfl⟩
      · refine ⟨seg, hseg, ?_⟩
        rw [if_pos hact]
        apply mapME_error_of_exists (fun w _ => hword w)
        refine ⟨w, List.mem_filter.mpr ⟨hwmem, by simpa using hwact⟩, ?_⟩
        exact createElement_err evalE w s a ts hanims hsel hkfne hrange hbad hp
    rw [hmap]
    rfl

/-- C9: `validate_styles` accepts any animation whose keyframe map is
non-empty even if its keys include neither 0% nor 100%; for styles carrying
such a (word-selector) animation, `compile` then fails with the
interpolator-construction `ValueError` ("First keyframe must be at time
0.0" / "Last keyframe must be at time 1.0") at the first frame index `k`
at which a word is active with animation progress below 1.0, every earlier
frame having compiled its elements successfully — so passing style
validation does not guarantee compilation succeeds. -/
theorem style_validation_does_not_guarantee_compile
    (evalE : EasingTag → ℚ → ℚ) (t t2 : Transcript) (s : StyleConfig) (a : Animation)
    (fps0 : ℤ) (k : ℕ)
    (hanims : s.animations = [a])
    (hsel : a.selector = "word")
    (hkfne : a.keyframes ≠ [])
    (hrange : ∀ p ∈ a.keyframes, 0 ≤ p.1 ∧ p.1 ≤ 1)
    (hbad : ((sortKeyframes (a.keyframes.map (fun p => (⟨p.1, p.2⟩ : Keyframe)))).headD
        default).time ≠ 0 ∨
      ((sortKeyframes (a.keyframes.map (fun p => (⟨p.1, p.2⟩ : Keyframe)))).getLastD
        default).time ≠ 1)
    (hfps : 0 < s.fps) (hfont : 0 < s.fontSize)
    (hres : 0 < s.resolution.1 ∧ 0 < s.resolution.2)
    (hdur : 0 < a.duration)
    (hvt : validateTranscript t = .ok t2)
    (hk : k < (truncRat (t2.duration * (s.fps : ℚ))).toNat + 1)
    (hbadk : badFrame t2 a ((k : ℚ) * (1 / (s.fps : ℚ))))
    (hgood : ∀ j < k, ¬ badFrame t2 a ((j : ℚ) * (1 / (s.fps : ℚ)))) :
    validateStyles s = .ok () ∧
    (∀ j < k, ∃ l, getElementsAtTime evalE t2 s ((j : ℚ) * (1 / (s.fps : ℚ))) = .ok l) ∧
    getElementsAtTime evalE t2 s ((k : ℚ) * (1 / (s.fps : ℚ))) = .error (kfErrMsg a) ∧
    compile evalE t s fps0 = .error (kfErrMsg a) := by
  have hvs : validateStyles s = .ok () := by
    unfold validateStyles
    rw [if_neg (not_le.mpr hfps), if_neg (not_le.mpr hfont),
      if_neg (fun hc => hc.elim (fun h => absurd hres.1 (not_lt.mpr h))
        (fun h => absurd hres.2 (not_lt.mpr h)))]
    rw [hanims]
    unfold validateAnims
    rw [if_neg (not_le.mpr hdur)]
    have hie : a.keyframes.isEmpty = false := by
      cases h : a.keyframes with
      | nil => exact absurd h hkfne
      | cons p ps => rfl
    rw [hie]
    rfl
  have hge := getElements_cases evalE t2 s a
  refine ⟨hvs,
    fun j hj => (hge ((j : ℚ) * (1 / (s.fps : ℚ))) hanims hsel hkfne hrange hbad).1
      (hgood j hj),
    (hge ((k : ℚ) * (1 / (s.fps : ℚ))) hanims hsel hkfne hrange hbad).2 hbadk, ?_⟩
  unfold compile
  rw [hvt, exceptOk_bind]
  dsimp only
  rw [hvs, exceptOk_bind]
  rw [if_pos (ne_of_gt hfps)]
  have hmap : mapME (fun (i : ℕ) =>
      getElementsAtTime evalE t2 s ((i : ℚ) * (1 / (s.fps : ℚ))) >>= fun els =>
        Except.ok (⟨(i : ℚ) * (1 / (s.fps : ℚ)), els⟩ : Frame))
      (List.range ((truncRat (t2.duration * (s.fps : ℚ))).toNat + 1))
      = .error (kfErrMsg a) := by
    apply mapME_error_of_exists
    · intro i _
      by_cases hb : badFrame t2 a ((i : ℚ) * (1 / (s.fps : ℚ)))
      · refine Or.inr ?_
        rw [(hge ((i : ℚ) * (1 / (s.fps : ℚ))) hanims hsel hkfne hrange hbad).2 hb]
        rfl
      · obtain ⟨l, hl⟩ :=
          (hge ((i : ℚ) * (1 / (s.fps : ℚ))) hanims hsel hkfne hrange hbad).1 hb
        refine Or.inl ⟨⟨(i : ℚ) * (1 / (s.fps : ℚ)), l⟩, ?_⟩
        rw [hl]
        rfl
    · refine ⟨k, List.mem_range.mpr hk, ?_⟩
      rw [(hge ((k : ℚ) * (1 / (s.fps : ℚ))) hanims hsel hkfne hrange hbad).2 hbadk]
      rfl
  rw [hmap]
  rfl

unseal Rat.mul Rat.add Rat.sub Rat.inv in
/-- Witness for C9: the sample one-word transcript at 1 fps with the
animation whose only keyframe sits at 50%: style validation passes, yet
compile fails with the interpolator's first-keyframe `ValueError` (at frame
0, where the word is active with progress 0 < 1). -/
theorem style_validation_does_not_guarantee_compile_witness :
    validateStyles stylesMissingEnds = .ok () ∧
    compile idEval sampleTranscript stylesMissingEnds 60
      = .error "First keyframe must be at time 0.0" := by
  have h := style_validation_does_not_guarantee_compile idEval sampleTranscript
    sampleTranscript stylesMissingEnds animMissingEnds 60 0 rfl rfl (by decide)
    (by decide) (Or.inl (by decide)) (by decide) (by decide) (by decide) (by decide)
    (by decide) (by decide) (by decide) (fun j hj => absurd hj (Nat.not_lt_zero j))
  refine ⟨h.1, ?_⟩
  have h2 := h.2.2.2
  rwa [show kfErrMsg animMissingEnds = "First keyframe must be at time 0.0" from by decide]
    at h2

end Captions